import Mathlib

/-!
Shallow embedding of the templating-engine tokenizer (src/lib.rs).

Bytes are modelled as `Nat` (`10` is the newline byte `\n`).  The nom
combinators used by the source (`tag`, `take_until`, `alt`, `many0`) are
modelled with an explicit error type distinguishing nom's recoverable
`Err::Error` from the fatal `Err::Failure`; `many0` carries a fuel
argument (always instantiated with more fuel than the input length, so
it never runs out: every successful step consumes at least one byte and
nom's `many0` rejects zero-length consumption).
-/

namespace Tmpl

abbrev Byte := Nat

/-- Rust `u8::is_ascii_whitespace`: space, tab, newline, form feed, carriage return. -/
def isAsciiWhitespace (b : Byte) : Bool :=
  b = 32 || b = 9 || b = 10 || b = 12 || b = 13

/-- Rust `[u8]::trim_ascii_start`. -/
def trimAsciiStart (s : List Byte) : List Byte :=
  s.dropWhile isAsciiWhitespace

/-- Rust `[u8]::trim_ascii_end`: remove trailing ASCII whitespace. -/
def trimAsciiEnd : List Byte → List Byte
  | [] => []
  | a :: t =>
    match trimAsciiEnd t with
    | [] => if isAsciiWhitespace a then [] else [a]
    | b :: u => a :: b :: u

/-- Rust `[u8]::trim_ascii`. -/
def trimAscii (s : List Byte) : List Byte :=
  trimAsciiEnd (trimAsciiStart s)

/-- `result.iter().filter(|&&x| x == b'\n').count()` from the source. -/
def countNl (s : List Byte) : Nat :=
  (s.filter (fun x => x == 10)).length

/-- The token `{%`. -/
def lbPercent : List Byte := [123, 37]
/-- The token `%}`. -/
def rbPercent : List Byte := [37, 125]
/-- The token `{{`. -/
def lbCurly : List Byte := [123, 123]
/-- The token `}}`. -/
def rbCurly : List Byte := [125, 125]
/-- The token `{#`. -/
def lbHash : List Byte := [123, 35]
/-- The token `#}`. -/
def rbHash : List Byte := [35, 125]

/-- nom error levels: `Err::Error` is recoverable, `Err::Failure` is fatal. -/
inductive PErr where
  | error
  | failure
deriving DecidableEq, Repr

/-- `NumberedInput` from the source: a remaining slice plus a running line counter. -/
structure NumberedInput where
  line_number : Nat
  i : List Byte
deriving DecidableEq, Repr

/-- The `Special` enum: a tag kind holding its (trimmed) body bytes. -/
inductive Special where
  | tagPercent (s : List Byte)
  | tagCurly (s : List Byte)
  | tagHash (s : List Byte)
deriving DecidableEq, Repr

/-- The `Block` enum: a tag or a plain-text region. -/
inductive Block where
  | special (s : Special)
  | plain (s : List Byte)
deriving DecidableEq, Repr

/-- `NumberedBlock`: a block together with the line its first byte is on. -/
structure NumberedBlock where
  line_number : Nat
  block : Block
deriving DecidableEq, Repr

/-- Byte-for-byte prefix test (the slice comparison behind nom `tag` and
`take_until`). -/
def bytesPrefix : List Byte → List Byte → Bool
  | [], _ => true
  | a :: as, s =>
    match s with
    | [] => false
    | b :: bs => a == b && bytesPrefix as bs

/-- nom `tag` (complete): match a literal token at the head of the input. -/
def pTag (t s : List Byte) : Except PErr (List Byte × List Byte) :=
  if bytesPrefix t s then .ok (s.drop t.length, t) else .error .error

/-- Index of the first occurrence of `needle` as a contiguous sub-slice of `hay`. -/
def findSubIdx (needle : List Byte) : List Byte → Option Nat
  | [] => if bytesPrefix needle ([] : List Byte) then some 0 else none
  | a :: t =>
    if bytesPrefix needle (a :: t) then some 0
    else (findSubIdx needle t).map (· + 1)

/-- nom `take_until` (complete): consume up to the first occurrence of `needle`. -/
def pTakeUntil (needle s : List Byte) : Except PErr (List Byte × List Byte) :=
  match findSubIdx needle s with
  | some i => .ok (s.drop i, s.take i)
  | none => .error .error

/-- `parse_special_with_separator`: `tuple((tag(l), take_until(r), tag(r))).map(|(_, m, _)| m)`. -/
def parseSpecialWithSeparator (l r input : List Byte) :
    Except PErr (List Byte × List Byte) :=
  match pTag l input with
  | .error e => .error e
  | .ok (s1, _) =>
    match pTakeUntil r s1 with
    | .error e => .error e
    | .ok (s2, m) =>
      match pTag r s2 with
      | .error e => .error e
      | .ok (s3, _) => .ok (s3, m)

/-- `make_special_parser`: wrap `parse_special_with_separator`, bumping the line
counter by the newlines inside the raw body and trimming the stored body. -/
def makeSpecial (l r : List Byte) (ctor : List Byte → Special) (ni : NumberedInput) :
    Except PErr (NumberedInput × NumberedBlock) :=
  match parseSpecialWithSeparator l r ni.i with
  | .error e => .error e
  | .ok (rest, result) =>
    .ok (⟨ni.line_number + countNl result, rest⟩,
      ⟨ni.line_number, .special (ctor (trimAscii result))⟩)

/-- nom `alt` step: keep a success, propagate a fatal failure, otherwise try the next alternative. -/
def altStep {A : Type} (x : Except PErr A) (f : Unit → Except PErr A) : Except PErr A :=
  match x with
  | .ok v => .ok v
  | .error .failure => .error .failure
  | .error .error => f ()

/-- `any_separator`: `alt` over the six two-byte delimiter tokens, in source order. -/
def anySeparator (s : List Byte) : Except PErr (List Byte × List Byte) :=
  altStep (pTag lbCurly s) fun _ =>
  altStep (pTag lbPercent s) fun _ =>
  altStep (pTag lbHash s) fun _ =>
  altStep (pTag rbCurly s) fun _ =>
  altStep (pTag rbPercent s) fun _ =>
  pTag rbHash s

/-- The loop body of `plain`: `suffix` is `input.i.drop i`, `ln` the running line
counter.  A separator at offset 0 is a fatal failure; a separator at offset
`i > 0` ends the plain span; an exhausted slice yields the whole remainder
(or a recoverable error when the slice was empty to begin with). -/
def plainAux (input : NumberedInput) : Nat → Nat → List Byte →
    Except PErr (NumberedInput × NumberedInput)
  | _, ln, [] =>
    if input.i.length = 0 then .error .error
    else
      .ok (⟨ln, input.i.drop input.i.length⟩,
        ⟨input.line_number, input.i.take input.i.length⟩)
  | i, ln, a :: rest =>
    if (anySeparator (a :: rest)).isOk then
      if i = 0 then .error .failure
      else .ok (⟨ln, input.i.drop i⟩, ⟨input.line_number, input.i.take i⟩)
    else plainAux input (i + 1) (if a = 10 then ln + 1 else ln) rest

/-- `plain`: parse plain text until any separator occurs. -/
def plain (input : NumberedInput) : Except PErr (NumberedInput × NumberedInput) :=
  plainAux input 0 input.line_number input.i

/-- `plain.map(|x| NumberedBlock { line_number: x.line_number, block: Block::Plain(x.i) })`. -/
def plainParser (ni : NumberedInput) : Except PErr (NumberedInput × NumberedBlock) :=
  match plain ni with
  | .error e => .error e
  | .ok (rest, x) => .ok (rest, ⟨x.line_number, .plain x.i⟩)

/-- The `percent` alternative of `parse_template`. -/
def percentParser : NumberedInput → Except PErr (NumberedInput × NumberedBlock) :=
  makeSpecial lbPercent rbPercent .tagPercent

/-- The `curly` alternative of `parse_template`. -/
def curlyParser : NumberedInput → Except PErr (NumberedInput × NumberedBlock) :=
  makeSpecial lbCurly rbCurly .tagCurly

/-- The `hash` alternative of `parse_template`. -/
def hashParser : NumberedInput → Except PErr (NumberedInput × NumberedBlock) :=
  makeSpecial lbHash rbHash .tagHash

/-- `alt((percent, curly, hash, plain_parser))`. -/
def blockParser (ni : NumberedInput) : Except PErr (NumberedInput × NumberedBlock) :=
  altStep (percentParser ni) fun _ =>
  altStep (curlyParser ni) fun _ =>
  altStep (hashParser ni) fun _ =>
  plainParser ni

/-- nom `many0` applied to `blockParser`: accumulate until a recoverable error,
propagate a fatal failure, and reject a step that consumes no input (nom's
`ErrorKind::Many0` guard).  `fuel` only bounds the recursion; it is always
called with `fuel` larger than the input length, which can never run out. -/
def many0Block : Nat → NumberedInput → Except PErr (NumberedInput × List NumberedBlock)
  | 0, _ => .error .error
  | fuel + 1, input =>
    match blockParser input with
    | .error .failure => .error .failure
    | .error .error => .ok (input, [])
    | .ok (i1, b) =>
      if i1.i.length = input.i.length then .error .error
      else
        match many0Block fuel i1 with
        | .error e => .error e
        | .ok (rest, bs) => .ok (rest, b :: bs)

/-- `parse_template`: run the block parser repeatedly, starting at line 0. -/
def parseTemplate (input : List Byte) : Except PErr (NumberedInput × List NumberedBlock) :=
  many0Block (input.length + 1) ⟨0, input⟩

/-- `ParsedTemplate`: the sequencer's output. -/
structure ParsedTemplate where
  parsed : List NumberedBlock
deriving DecidableEq, Repr

/-- `ParsedTemplate::new`: parse, and keep the result only if the rest is empty. -/
def ParsedTemplate.new (template : List Byte) : Option ParsedTemplate :=
  match parseTemplate template with
  | .error _ => none
  | .ok (rest, parsed) => if rest.i.length = 0 then some ⟨parsed⟩ else none

/-- The loop of `ParsedTemplate::instantiate` over a generic fallible sink
`w : S → List Byte → Except Unit S` (`write_all`, threading sink state). -/
def instantiateGo {S : Type} (w : S → List Byte → Except Unit S) :
    List NumberedBlock → S → Except Unit S
  | [], s0 => .ok s0
  | b :: bs, s0 =>
    match
      (match b.block with
       | .plain x => w s0 x
       | .special (.tagPercent x) => w s0 x
       | .special (.tagCurly x) => w s0 x
       | .special (.tagHash x) => w s0 x) with
    | .error e => .error e
    | .ok s1 => instantiateGo w bs s1

/-- `ParsedTemplate::instantiate`. -/
def ParsedTemplate.instantiate {S : Type} (t : ParsedTemplate)
    (w : S → List Byte → Except Unit S) (s0 : S) : Except Unit S :=
  instantiateGo w t.parsed s0

/-- An infallible sink that accumulates the written bytes. -/
def listSink (acc : List Byte) (bs : List Byte) : Except Unit (List Byte) :=
  .ok (acc ++ bs)

/-- Opening token of a tag kind. -/
def specialOpenTok : Special → List Byte
  | .tagPercent _ => lbPercent
  | .tagCurly _ => lbCurly
  | .tagHash _ => lbHash

/-- Closing token of a tag kind. -/
def specialCloseTok : Special → List Byte
  | .tagPercent _ => rbPercent
  | .tagCurly _ => rbCurly
  | .tagHash _ => rbHash

/-- Stored body of a tag. -/
def specialBody : Special → List Byte
  | .tagPercent s => s
  | .tagCurly s => s
  | .tagHash s => s

/-- Relation between the raw bytes a block consumed and the block itself:
a plain block stores exactly its nonempty raw bytes; a tag consumed its
opening token, a raw body and its closing token, and stores the trimmed body. -/
def rawMatches (raw : List Byte) (b : Block) : Prop :=
  match b with
  | .plain s => raw = s ∧ s ≠ []
  | .special sp =>
    ∃ m, raw = specialOpenTok sp ++ m ++ specialCloseTok sp ∧ specialBody sp = trimAscii m

/-- The line numbers of successive blocks, given the raw bytes each consumed:
each block is stamped with the running line count, which then advances by the
newlines inside the block's raw bytes. -/
def positionsOk : Nat → List (List Byte) → List NumberedBlock → Prop
  | _, [], [] => True
  | ln, raw :: raws, b :: bs => b.line_number = ln ∧ positionsOk (ln + countNl raw) raws bs
  | _, _, _ => False

/-- Neither end of `s` is an ASCII whitespace byte. -/
def noWsEdges (s : List Byte) : Bool :=
  (s.head?.all fun x => ! isAsciiWhitespace x) &&
  (s.getLast?.all fun x => ! isAsciiWhitespace x)

theorem countNl_append (a b : List Byte) : countNl (a ++ b) = countNl a + countNl b := by
  simp [countNl, List.filter_append]

theorem countNl_single (a : Byte) : countNl [a] = if a = 10 then 1 else 0 := by
  by_cases ha : a = 10
  · simp [countNl, ha]
  · have hb : (a == 10) = false := beq_eq_false_iff_ne.mpr ha
    simp [countNl, List.filter, hb, ha]

theorem bytesPrefix_iff : ∀ (t s : List Byte), bytesPrefix t s = true ↔ t <+: s := by
  intro t
  induction t with
  | nil =>
    intro s
    simp [bytesPrefix]
  | cons a as ih =>
    intro s
    cases s with
    | nil =>
      simp [bytesPrefix]
    | cons b bs =>
      simp [bytesPrefix, List.cons_prefix_cons, ih bs, Bool.and_eq_true, beq_iff_eq]

theorem head?_trimAsciiStart_not_ws (s : List Byte) (x : Byte)
    (h : (trimAsciiStart s).head? = some x) : isAsciiWhitespace x = false := by
  induction s with
  | nil => simp [trimAsciiStart] at h
  | cons a t ih =>
    rw [trimAsciiStart, List.dropWhile_cons] at h
    by_cases ha : isAsciiWhitespace a
    · rw [if_pos ha] at h
      exact ih h
    · rw [if_neg ha] at h
      simp only [List.head?_cons, Option.some.injEq] at h
      subst h
      simpa using ha

theorem getLast?_trimAsciiEnd_not_ws (s : List Byte) (x : Byte)
    (h : (trimAsciiEnd s).getLast? = some x) : isAsciiWhitespace x = false := by
  induction s with
  | nil => simp [trimAsciiEnd] at h
  | cons a t ih =>
    rw [trimAsciiEnd] at h
    cases he : trimAsciiEnd t with
    | nil =>
      rw [he] at h
      by_cases ha : isAsciiWhitespace a <;> simp [ha] at h
      · subst h
        simpa using ha
    | cons b u =>
      rw [he] at h
      rw [List.getLast?_cons_cons, ← he] at h
      exact ih h

theorem head?_trimAsciiEnd (s : List Byte) (x : Byte)
    (h : (trimAsciiEnd s).head? = some x) : s.head? = some x := by
  cases s with
  | nil => simp [trimAsciiEnd] at h
  | cons a t =>
    rw [trimAsciiEnd] at h
    cases he : trimAsciiEnd t with
    | nil =>
      rw [he] at h
      by_cases ha : isAsciiWhitespace a <;> simp [ha] at h
      · simp [h]
    | cons b u =>
      rw [he] at h
      simp only [List.head?_cons, Option.some.injEq] at h
      simp [h]

theorem trimAsciiStart_eq_self (s : List Byte)
    (h : ∀ x, s.head? = some x → isAsciiWhitespace x = false) : trimAsciiStart s = s := by
  cases s with
  | nil => rfl
  | cons a t =>
    have ha := h a (by simp)
    simp [trimAsciiStart, List.dropWhile_cons, ha]

theorem trimAsciiEnd_eq_self (s : List Byte)
    (h : ∀ x, s.getLast? = some x → isAsciiWhitespace x = false) : trimAsciiEnd s = s := by
  induction s with
  | nil => rfl
  | cons a t ih =>
    cases t with
    | nil =>
      have ha := h a (by simp)
      simp [trimAsciiEnd, ha]
    | cons b u =>
      have ht : trimAsciiEnd (b :: u) = b :: u :=
        ih (fun x hx => h x (by rw [List.getLast?_cons_cons]; exact hx))
      rw [trimAsciiEnd, ht]

theorem head?_trimAscii_not_ws (s : List Byte) (x : Byte)
    (h : (trimAscii s).head? = some x) : isAsciiWhitespace x = false :=
  head?_trimAsciiStart_not_ws s x (head?_trimAsciiEnd _ x h)

theorem getLast?_trimAscii_not_ws (s : List Byte) (x : Byte)
    (h : (trimAscii s).getLast? = some x) : isAsciiWhitespace x = false :=
  getLast?_trimAsciiEnd_not_ws (trimAsciiStart s) x h

theorem trimAscii_idem (s : List Byte) : trimAscii (trimAscii s) = trimAscii s := by
  have h1 : trimAsciiStart (trimAscii s) = trimAscii s :=
    trimAsciiStart_eq_self _ (fun x hx => head?_trimAscii_not_ws s x hx)
  have h2 : trimAscii (trimAscii s) = trimAsciiEnd (trimAsciiStart (trimAscii s)) := rfl
  rw [h2, h1]
  exact trimAsciiEnd_eq_self _ (fun x hx => getLast?_trimAscii_not_ws s x hx)

theorem noWsEdges_trimAscii (s : List Byte) : noWsEdges (trimAscii s) = true := by
  simp only [noWsEdges, Bool.and_eq_true]
  constructor
  · cases hh : (trimAscii s).head? with
    | none => simp
    | some x => simp [head?_trimAscii_not_ws s x hh]
  · cases hl : (trimAscii s).getLast? with
    | none => simp
    | some x => simp [getLast?_trimAscii_not_ws s x hl]

theorem findSubIdx_some (needle : List Byte) : ∀ (hay : List Byte) (i : Nat),
    findSubIdx needle hay = some i →
    needle <+: hay.drop i ∧ i ≤ hay.length ∧ ∀ j, j < i → ¬ needle <+: hay.drop j := by
  intro hay
  induction hay with
  | nil =>
    intro i h
    by_cases hp : bytesPrefix needle ([] : List Byte) = true
    · simp [findSubIdx, hp] at h
      subst h
      exact ⟨(bytesPrefix_iff _ _).mp hp, Nat.le_refl _, fun j hj => absurd hj (by omega)⟩
    · simp [findSubIdx, hp] at h
  | cons a t ih =>
    intro i h
    by_cases hp : bytesPrefix needle (a :: t) = true
    · simp [findSubIdx, hp] at h
      subst h
      exact ⟨(bytesPrefix_iff _ _).mp hp, Nat.zero_le _, fun j hj => absurd hj (by omega)⟩
    · simp [findSubIdx, hp, Option.map_eq_some'] at h
      obtain ⟨i', hi', rfl⟩ := h
      obtain ⟨hpre, hle, hmin⟩ := ih i' hi'
      refine ⟨by simpa using hpre, by simpa using Nat.succ_le_succ hle, ?_⟩
      intro j hj
      cases j with
      | zero =>
        intro hc
        exact hp ((bytesPrefix_iff _ _).mpr (by simpa using hc))
      | succ j' =>
        intro hc
        exact hmin j' (Nat.lt_of_succ_lt_succ hj) (by simpa using hc)

theorem findSubIdx_none (needle : List Byte) : ∀ (hay : List Byte),
    findSubIdx needle hay = none → ∀ j, ¬ needle <+: hay.drop j := by
  intro hay
  induction hay with
  | nil =>
    intro h j
    by_cases hp : bytesPrefix needle ([] : List Byte) = true
    · simp [findSubIdx, hp] at h
    · intro hc
      exact hp ((bytesPrefix_iff _ _).mpr (by simpa using hc))
  | cons a t ih =>
    intro h j
    by_cases hp : bytesPrefix needle (a :: t) = true
    · simp [findSubIdx, hp] at h
    · simp [findSubIdx, hp] at h
      cases j with
      | zero =>
        intro hc
        exact hp ((bytesPrefix_iff _ _).mpr (by simpa using hc))
      | succ j' => exact ih h j'

theorem findSubIdx_eq_none_of (needle hay : List Byte)
    (h : ∀ j, ¬ needle <+: hay.drop j) : findSubIdx needle hay = none := by
  cases hf : findSubIdx needle hay with
  | none => rfl
  | some i => exact absurd (findSubIdx_some needle hay i hf).1 (h i)

theorem pTag_ok {t s rest w : List Byte} (h : pTag t s = .ok (rest, w)) :
    s = t ++ rest ∧ w = t := by
  unfold pTag at h
  by_cases hp : bytesPrefix t s = true
  · rw [if_pos hp] at h
    injection h with h'
    injection h' with h1 h2
    obtain ⟨u, hu⟩ := (bytesPrefix_iff _ _).mp hp
    subst hu
    rw [List.drop_left] at h1
    exact ⟨by rw [h1], h2.symm⟩
  · rw [if_neg hp] at h
    simp at h

theorem pTag_of_prefix {t s : List Byte} (h : t <+: s) :
    pTag t s = .ok (s.drop t.length, t) := by
  unfold pTag
  rw [if_pos ((bytesPrefix_iff _ _).mpr h)]

theorem parseSpecialWithSeparator_ok {l r input rest m : List Byte}
    (h : parseSpecialWithSeparator l r input = .ok (rest, m)) :
    input = l ++ m ++ r ++ rest ∧
      ∃ i, findSubIdx r (input.drop l.length) = some i ∧ m = (input.drop l.length).take i := by
  unfold parseSpecialWithSeparator at h
  cases h1 : pTag l input with
  | error e => simp [h1] at h
  | ok p1 =>
    obtain ⟨s1, tk1⟩ := p1
    simp only [h1] at h
    cases h2 : pTakeUntil r s1 with
    | error e => simp [h2] at h
    | ok p2 =>
      obtain ⟨s2, m'⟩ := p2
      simp only [h2] at h
      cases h3 : pTag r s2 with
      | error e => simp [h3] at h
      | ok p3 =>
        obtain ⟨s3, tk3⟩ := p3
        simp only [h3] at h
        simp only [Except.ok.injEq, Prod.mk.injEq] at h
        obtain ⟨hrest, hm⟩ := h
        obtain ⟨hin1, _⟩ := pTag_ok h1
        obtain ⟨hs2, _⟩ := pTag_ok h3
        unfold pTakeUntil at h2
        cases hf : findSubIdx r s1 with
        | none => simp [hf] at h2
        | some i =>
          simp only [hf] at h2
          simp only [Except.ok.injEq, Prod.mk.injEq] at h2
          obtain ⟨hdrop, htake⟩ := h2
          have hs1i : input.drop l.length = s1 := by
            rw [hin1]; exact List.drop_left l s1
          have hsplit : s1 = m ++ r ++ rest := by
            calc s1 = s1.take i ++ s1.drop i := (List.take_append_drop i s1).symm
            _ = m ++ s2 := by rw [htake, hdrop, hm]
            _ = m ++ (r ++ rest) := by rw [hs2, hrest]
            _ = m ++ r ++ rest := by rw [List.append_assoc]
          refine ⟨?_, i, by rw [hs1i]; exact hf, by rw [hs1i, ← hm]; exact htake.symm⟩
          rw [hin1, hsplit]
          simp [List.append_assoc]

theorem makeSpecial_ok {l r : List Byte} {ctor : List Byte → Special}
    {ni rest : NumberedInput} {b : NumberedBlock}
    (h : makeSpecial l r ctor ni = .ok (rest, b)) :
    ∃ s3 m, parseSpecialWithSeparator l r ni.i = .ok (s3, m) ∧
      rest.line_number = ni.line_number + countNl m ∧ rest.i = s3 ∧
      b.line_number = ni.line_number ∧ b.block = .special (ctor (trimAscii m)) := by
  unfold makeSpecial at h
  cases hps : parseSpecialWithSeparator l r ni.i with
  | error e => simp [hps] at h
  | ok p =>
    obtain ⟨s3, m⟩ := p
    simp only [hps] at h
    injection h with h'
    injection h' with h1 h2
    subst h1
    subst h2
    exact ⟨s3, m, rfl, rfl, rfl, rfl, rfl⟩

theorem drop_cons_inv : ∀ (i : Nat) (l : List Byte) (a : Byte) (rest : List Byte),
    l.drop i = a :: rest →
    i < l.length ∧ l.take (i + 1) = l.take i ++ [a] ∧ l.drop (i + 1) = rest := by
  intro i
  induction i with
  | zero =>
    intro l a rest h
    rw [List.drop_zero] at h
    subst h
    exact ⟨by simp, by simp, by simp⟩
  | succ i' ih =>
    intro l a rest h
    cases l with
    | nil => simp at h
    | cons b t =>
      rw [List.drop_succ_cons] at h
      obtain ⟨h1, h2, h3⟩ := ih t a rest h
      refine ⟨by simpa using Nat.succ_lt_succ h1, ?_, by simpa using h3⟩
      rw [List.take_succ_cons, List.take_succ_cons, h2]
      rfl

theorem plainAux_ok : ∀ (suffix : List Byte) (input : NumberedInput) (i ln : Nat)
    (r p : NumberedInput),
    suffix = input.i.drop i → i ≤ input.i.length →
    ln = input.line_number + countNl (input.i.take i) →
    plainAux input i ln suffix = .ok (r, p) →
    ∃ k, 0 < k ∧ k ≤ input.i.length ∧ p.i = input.i.take k ∧ r.i = input.i.drop k ∧
      p.line_number = input.line_number ∧
      r.line_number = input.line_number + countNl (input.i.take k) := by
  intro suffix
  induction suffix with
  | nil =>
    intro input i ln r p hs hle hln h
    have hlen : input.i.length ≤ i := List.drop_eq_nil_iff.mp hs.symm
    have hieq : i = input.i.length := Nat.le_antisymm hle hlen
    simp only [plainAux] at h
    by_cases h0 : input.i.length = 0
    · rw [if_pos h0] at h
      simp at h
    · rw [if_neg h0] at h
      injection h with h'
      injection h' with hr hp
      subst hr
      subst hp
      exact ⟨input.i.length, Nat.pos_of_ne_zero h0, Nat.le_refl _, rfl, rfl, rfl,
        by rw [hln, hieq]⟩
  | cons a restSuffix ih =>
    intro input i ln r p hs hle hln h
    obtain ⟨hilt, htake, hdrop⟩ := drop_cons_inv i input.i a restSuffix hs.symm
    simp only [plainAux] at h
    by_cases hsep : (anySeparator (a :: restSuffix)).isOk = true
    · rw [if_pos hsep] at h
      by_cases hi0 : i = 0
      · rw [if_pos hi0] at h
        simp at h
      · rw [if_neg hi0] at h
        injection h with h'
        injection h' with hr hp
        subst hr
        subst hp
        exact ⟨i, Nat.pos_of_ne_zero hi0, Nat.le_of_lt hilt, rfl, rfl, rfl, by rw [hln]⟩
    · rw [if_neg hsep] at h
      have hln2 : (if a = 10 then ln + 1 else ln) =
          input.line_number + countNl (input.i.take (i + 1)) := by
        rw [htake, countNl_append, countNl_single, hln]
        by_cases ha : a = 10
        · simp [ha]
          omega
        · simp [ha]
      exact ih input (i + 1) _ r p hdrop.symm hilt hln2 h

theorem plainAux_eq_error : ∀ (suffix : List Byte) (input : NumberedInput) (i ln : Nat),
    plainAux input i ln suffix = .error .error → input.i = [] := by
  intro suffix
  induction suffix with
  | nil =>
    intro input i ln h
    simp only [plainAux] at h
    by_cases h0 : input.i.length = 0
    · exact List.length_eq_zero.mp h0
    · rw [if_neg h0] at h
      simp at h
  | cons a t ih =>
    intro input i ln h
    simp only [plainAux] at h
    by_cases hsep : (anySeparator (a :: t)).isOk = true
    · rw [if_pos hsep] at h
      by_cases hi0 : i = 0 <;> simp [hi0] at h
    · rw [if_neg hsep] at h
      exact ih input _ _ h

theorem plain_sep_failure (input : NumberedInput) (ln : Nat) (a : Byte) (t : List Byte)
    (hsep : (anySeparator (a :: t)).isOk = true) :
    plainAux input 0 ln (a :: t) = .error .failure := by
  simp only [plainAux]
  rw [if_pos hsep]
  simp

theorem altStep_eq_ok {A : Type} {x : Except PErr A} {f : Unit → Except PErr A} {v : A}
    (h : altStep x f = .ok v) : x = .ok v ∨ (x = .error .error ∧ f () = .ok v) := by
  cases x with
  | ok w => left; simpa [altStep] using h
  | error e =>
    cases e with
    | failure => simp [altStep] at h
    | error => right; exact ⟨rfl, by simpa [altStep] using h⟩

theorem altStep_eq_error {A : Type} {x : Except PErr A} {f : Unit → Except PErr A}
    (h : altStep x f = .error .error) : x = .error .error ∧ f () = .error .error := by
  cases x with
  | ok w => simp [altStep] at h
  | error e =>
    cases e with
    | failure => simp [altStep] at h
    | error => exact ⟨rfl, by simpa [altStep] using h⟩

theorem makeSpecial_step {l r : List Byte} {ctor : List Byte → Special}
    {ni rest : NumberedInput} {b : NumberedBlock}
    (h : makeSpecial l r ctor ni = .ok (rest, b))
    (hlne : l ≠ []) (hl0 : countNl l = 0) (hr0 : countNl r = 0)
    (hopen : ∀ x, specialOpenTok (ctor x) = l)
    (hclose : ∀ x, specialCloseTok (ctor x) = r)
    (hbody : ∀ x, specialBody (ctor x) = x) :
    ∃ raw, raw ≠ [] ∧ ni.i = raw ++ rest.i ∧ b.line_number = ni.line_number ∧
      rest.line_number = ni.line_number + countNl raw ∧ rawMatches raw b.block := by
  obtain ⟨s3, m, hps, hln, hi, hbln, hbblk⟩ := makeSpecial_ok h
  obtain ⟨hin, _, _, _⟩ := parseSpecialWithSeparator_ok hps
  refine ⟨l ++ m ++ r, by simp [hlne], ?_, hbln, ?_, ?_⟩
  · rw [hin, hi]
  · simp [hln, countNl_append, hl0, hr0]
  · rw [hbblk]
    exact ⟨m, by rw [hopen, hclose], by rw [hbody]⟩

theorem blockParser_ok {ni rest : NumberedInput} {b : NumberedBlock}
    (h : blockParser ni = .ok (rest, b)) :
    ∃ raw, raw ≠ [] ∧ ni.i = raw ++ rest.i ∧ b.line_number = ni.line_number ∧
      rest.line_number = ni.line_number + countNl raw ∧ rawMatches raw b.block := by
  unfold blockParser at h
  rcases altStep_eq_ok h with hp | ⟨_, h⟩
  · exact makeSpecial_step hp (by simp [lbPercent]) rfl rfl
      (fun _ => rfl) (fun _ => rfl) (fun _ => rfl)
  rcases altStep_eq_ok h with hc | ⟨_, h⟩
  · exact makeSpecial_step hc (by simp [lbCurly]) rfl rfl
      (fun _ => rfl) (fun _ => rfl) (fun _ => rfl)
  rcases altStep_eq_ok h with hh | ⟨_, h⟩
  · exact makeSpecial_step hh (by simp [lbHash]) rfl rfl
      (fun _ => rfl) (fun _ => rfl) (fun _ => rfl)
  · unfold plainParser at h
    cases hpl : plain ni with
    | error e => simp [hpl] at h
    | ok q =>
      obtain ⟨r0, x⟩ := q
      simp only [hpl] at h
      injection h with h'
      injection h' with hr hb
      subst hr
      subst hb
      obtain ⟨k, hk0, hkle, hpi, hri, hpln, hrln⟩ :=
        plainAux_ok ni.i ni 0 ni.line_number r0 x (List.drop_zero ni.i).symm
          (Nat.zero_le _) (by simp [countNl]) hpl
      have hlen : (ni.i.take k).length = k := by
        rw [List.length_take]
        omega
      have hne : ni.i.take k ≠ [] := by
        intro hcon
        rw [hcon] at hlen
        simp at hlen
        omega
      refine ⟨ni.i.take k, hne, ?_, hpln, hrln, ?_⟩
      · rw [hri]
        exact (List.take_append_drop k ni.i).symm
      · exact ⟨hpi.symm, by rw [hpi]; exact hne⟩

theorem blockParser_eq_error {ni : NumberedInput} (h : blockParser ni = .error .error) :
    ni.i = [] := by
  unfold blockParser at h
  obtain ⟨_, h⟩ := altStep_eq_error h
  obtain ⟨_, h⟩ := altStep_eq_error h
  obtain ⟨_, h⟩ := altStep_eq_error h
  unfold plainParser at h
  cases hpl : plain ni with
  | ok q =>
    obtain ⟨r0, x⟩ := q
    simp [hpl] at h
  | error e =>
    simp only [hpl] at h
    injection h with h'
    subst h'
    exact plainAux_eq_error ni.i ni 0 ni.line_number hpl

theorem many0Block_ok : ∀ (fuel : Nat) (input rest : NumberedInput)
    (blocks : List NumberedBlock),
    input.i.length < fuel → many0Block fuel input = .ok (rest, blocks) →
    ∃ raws : List (List Byte), input.i = raws.flatten ++ rest.i ∧
      List.Forall₂ rawMatches raws (blocks.map NumberedBlock.block) ∧
      positionsOk input.line_number raws blocks ∧
      rest.line_number = input.line_number + countNl raws.flatten := by
  intro fuel
  induction fuel with
  | zero =>
    intro input rest blocks hlt h
    exact absurd hlt (Nat.not_lt_zero _)
  | succ fuel ih =>
    intro input rest blocks hlt h
    simp only [many0Block] at h
    cases hb : blockParser input with
    | error e =>
      cases e with
      | failure => simp [hb] at h
      | error =>
        simp only [hb] at h
        injection h with h'
        injection h' with h1 h2
        subst h1
        subst h2
        exact ⟨[], by simp, List.Forall₂.nil, trivial, by simp [countNl]⟩
    | ok q =>
      obtain ⟨i1, b⟩ := q
      simp only [hb] at h
      by_cases heq : i1.i.length = input.i.length
      · rw [if_pos heq] at h
        simp at h
      · rw [if_neg heq] at h
        cases hm : many0Block fuel i1 with
        | error e => simp [hm] at h
        | ok q2 =>
          obtain ⟨rest', bs⟩ := q2
          simp only [hm] at h
          injection h with h'
          injection h' with h1 h2
          subst h1
          subst h2
          obtain ⟨raw, hraw_ne, hsplit, hbln, hi1ln, hmatch⟩ := blockParser_ok hb
          have hlen2 : i1.i.length < fuel := by
            have hadd : input.i.length = raw.length + i1.i.length := by
              rw [hsplit, List.length_append]
            have hrawpos : 0 < raw.length := List.length_pos.mpr hraw_ne
            omega
          obtain ⟨raws, hsplit2, hforall, hpos, hrln⟩ := ih i1 rest' bs hlen2 hm
          refine ⟨raw :: raws, ?_, ?_, ?_, ?_⟩
          · rw [hsplit, hsplit2, List.flatten_cons, List.append_assoc]
          · rw [List.map_cons]
            exact List.Forall₂.cons hmatch hforall
          · exact ⟨hbln, hi1ln ▸ hpos⟩
          · rw [hrln, hi1ln, List.flatten_cons, countNl_append, Nat.add_assoc]

theorem many0Block_rest_empty : ∀ (fuel : Nat) (input rest : NumberedInput)
    (blocks : List NumberedBlock),
    input.i.length < fuel → many0Block fuel input = .ok (rest, blocks) → rest.i = [] := by
  intro fuel
  induction fuel with
  | zero =>
    intro input rest blocks hlt h
    exact absurd hlt (Nat.not_lt_zero _)
  | succ fuel ih =>
    intro input rest blocks hlt h
    simp only [many0Block] at h
    cases hb : blockParser input with
    | error e =>
      cases e with
      | failure => simp [hb] at h
      | error =>
        simp only [hb] at h
        injection h with h'
        injection h' with h1 h2
        subst h1
        exact blockParser_eq_error hb
    | ok q =>
      obtain ⟨i1, b⟩ := q
      simp only [hb] at h
      by_cases heq : i1.i.length = input.i.length
      · rw [if_pos heq] at h
        simp at h
      · rw [if_neg heq] at h
        cases hm : many0Block fuel i1 with
        | error e => simp [hm] at h
        | ok q2 =>
          obtain ⟨rest', bs⟩ := q2
          simp only [hm] at h
          injection h with h'
          injection h' with h1 h2
          subst h1
          obtain ⟨raw, hraw_ne, hsplit, _, _, _⟩ := blockParser_ok hb
          have hlen2 : i1.i.length < fuel := by
            have hadd : input.i.length = raw.length + i1.i.length := by
              rw [hsplit, List.length_append]
            have hrawpos : 0 < raw.length := List.length_pos.mpr hraw_ne
            omega
          exact ih i1 rest' bs hlen2 hm

theorem new_some {input : List Byte} {t : ParsedTemplate}
    (h : ParsedTemplate.new input = some t) :
    ∃ rest, parseTemplate input = .ok (rest, t.parsed) ∧ rest.i = [] := by
  unfold ParsedTemplate.new at h
  cases hp : parseTemplate input with
  | error e => simp [hp] at h
  | ok q =>
    obtain ⟨rest, parsed⟩ := q
    simp only [hp] at h
    by_cases h0 : rest.i.length = 0
    · rw [if_pos h0] at h
      injection h with h'
      subst h'
      exact ⟨rest, rfl, List.length_eq_zero.mp h0⟩
    · rw [if_neg h0] at h
      simp at h

theorem new_eq_none_of_failure {s : List Byte} (h : blockParser ⟨0, s⟩ = .error .failure) :
    ParsedTemplate.new s = none := by
  unfold ParsedTemplate.new parseTemplate
  simp only [many0Block]
  rw [h]

theorem positionsOk_getElem : ∀ (blocks : List NumberedBlock) (raws : List (List Byte))
    (ln j : Nat), positionsOk ln raws blocks → j < blocks.length →
    (blocks[j]?).map NumberedBlock.line_number =
      some (ln + countNl ((raws.take j).flatten)) := by
  intro blocks
  induction blocks with
  | nil =>
    intro raws ln j hpos hj
    simp at hj
  | cons b bs ih =>
    intro raws ln j hpos hj
    cases raws with
    | nil => simp [positionsOk] at hpos
    | cons raw raws2 =>
      simp only [positionsOk] at hpos
      obtain ⟨hb, hrest⟩ := hpos
      cases j with
      | zero => simp [hb, countNl]
      | succ j2 =>
        have hrec := ih raws2 (ln + countNl raw) j2 hrest (by simpa using hj)
        simpa [List.take_succ_cons, List.flatten_cons, countNl_append,
          Nat.add_assoc] using hrec

theorem forall2_mem_split {R : List Byte → Block → Prop} :
    ∀ {as : List (List Byte)} {bs : List Block} {b : Block},
    List.Forall₂ R as bs → b ∈ bs →
    ∃ p1 a p2, as = p1 ++ a :: p2 ∧ R a b := by
  intro as bs b h
  induction h with
  | nil => intro hmem; simp at hmem
  | @cons a0 b0 as2 bs2 ha htail ih =>
    intro hmem
    rcases List.mem_cons.mp hmem with rfl | hmem2
    · exact ⟨[], a0, as2, by simp, ha⟩
    · obtain ⟨p1, aa, p2, heq, hr⟩ := ih hmem2
      exact ⟨a0 :: p1, aa, p2, by simp [heq], hr⟩

/-- C1 (counterexample): the code initialises the line counter at 0, not 1:
`ParsedTemplate::new(b"a")` yields a single span whose `line_number` is 0,
while 1 plus the count of newlines preceding it would be 1. -/
theorem line_number_zero_based_counterexample :
    ParsedTemplate.new [97] = some ⟨[⟨0, .plain [97]⟩]⟩ ∧
    (0 : Nat) ≠ 1 + countNl ([] : List Byte) :=
  ⟨rfl, by decide⟩

/-- C1 (amended): line numbering is 0-based.  For every input that parses,
the spans' consumed byte ranges partition the input, and each span's
`line_number` equals the count of newline bytes in the input strictly
preceding that span's first byte (so the first span of any input is on
line 0, not 1). -/
theorem span_line_numbers (input : List Byte) (t : ParsedTemplate) (j : Nat)
    (h : ParsedTemplate.new input = some t) (hj : j < t.parsed.length) :
    ∃ raws : List (List Byte), input = raws.flatten ∧
      List.Forall₂ rawMatches raws (t.parsed.map NumberedBlock.block) ∧
      (t.parsed[j]?).map NumberedBlock.line_number =
        some (countNl ((raws.take j).flatten)) := by
  obtain ⟨rest, hpt, hrest⟩ := new_some h
  obtain ⟨raws, hsplit, hforall, hpos, _⟩ :=
    many0Block_ok (input.length + 1) ⟨0, input⟩ rest t.parsed (Nat.lt_succ_self _) hpt
  refine ⟨raws, by simpa [hrest] using hsplit, hforall, ?_⟩
  have hg := positionsOk_getElem t.parsed raws 0 j hpos hj
  simpa using hg

/-- C1 witness: the theorem applied to the one-byte input `"a"`. -/
theorem span_line_numbers_witness :
    ∃ raws : List (List Byte), ([97] : List Byte) = raws.flatten ∧
      List.Forall₂ rawMatches raws
        ((⟨[⟨0, .plain [97]⟩]⟩ : ParsedTemplate).parsed.map NumberedBlock.block) ∧
      ((⟨[⟨0, .plain [97]⟩]⟩ : ParsedTemplate).parsed[0]?).map NumberedBlock.line_number =
        some (countNl ((raws.take 0).flatten)) :=
  span_line_numbers [97] ⟨[⟨0, .plain [97]⟩]⟩ 0 rfl (by decide)

/-- C2 (counterexample): `ParsedTemplate::new(b"{{\n\n}}\n\nfoo")` yields the
curly tag at `line_number` 0 and the plain span at `line_number` 2 — not at
lines 1 and 3 as the claim states. -/
theorem multiline_tag_counterexample :
    ParsedTemplate.new [123, 123, 10, 10, 125, 125, 10, 10, 102, 111, 111] =
      some ⟨[⟨0, .special (.tagCurly [])⟩, ⟨2, .plain [10, 10, 102, 111, 111]⟩]⟩ ∧
    (0 : Nat) ≠ 1 ∧ (2 : Nat) ≠ 3 :=
  ⟨rfl, by decide, by decide⟩

/-- C2 (amended): `ParsedTemplate::new(b"{{\n\n}}\n\nfoo")` returns exactly two
spans: a curly tag with empty trimmed body at `line_number` 0, followed by the
plain span `"\n\nfoo"` at `line_number` 2 (line numbering is 0-based). -/
theorem multiline_tag_spans :
    ParsedTemplate.new [123, 123, 10, 10, 125, 125, 10, 10, 102, 111, 111] =
      some ⟨[⟨0, .special (.tagCurly [])⟩, ⟨2, .plain [10, 10, 102, 111, 111]⟩]⟩ :=
  rfl

/-- C3: a remaining slice beginning with a closing token (`%}`, `}}` or `#}`)
makes the block parser (whose three opening-token alternatives all fail
there, falling through to the plain-text attempt) abort with the fatal
`Err::Failure`, which propagates so the whole scan yields no value; in
particular `ParsedTemplate::new(b"}} hi")` is `none`. -/
theorem stray_closing_aborts (s r : List Byte) (ln : Nat)
    (hr : r = rbPercent ∨ r = rbCurly ∨ r = rbHash) (hpre : r <+: s) :
    blockParser ⟨ln, s⟩ = .error .failure ∧ ParsedTemplate.new s = none := by
  rcases hr with rfl | rfl | rfl <;> obtain ⟨u, rfl⟩ := hpre <;>
    exact ⟨rfl, new_eq_none_of_failure rfl⟩

/-- C3 witness: the theorem applied to `"}} hi"` with the `}}` token. -/
theorem stray_closing_aborts_witness :
    blockParser ⟨0, [125, 125, 32, 104, 105]⟩ = .error .failure ∧
    ParsedTemplate.new [125, 125, 32, 104, 105] = none :=
  stray_closing_aborts [125, 125, 32, 104, 105] rbCurly 0 (Or.inr (Or.inl rfl))
    ⟨[32, 104, 105], rfl⟩

/-- C4: when a remaining slice begins with an opening token whose matching
closing token never occurs afterwards, the matching tag alternative fails,
the plain-text attempt then hits the opening token at offset 0 and raises
the fatal failure, and the whole parse yields no value; in particular
`ParsedTemplate::new(b"{{ abc")` is `none`. -/
theorem unterminated_tag_fails (s o c : List Byte) (ln : Nat)
    (hoc : (o = lbPercent ∧ c = rbPercent) ∨ (o = lbCurly ∧ c = rbCurly) ∨
      (o = lbHash ∧ c = rbHash))
    (hpre : o <+: s) (hno : ∀ j, ¬ c <+: ((s.drop o.length).drop j)) :
    blockParser ⟨ln, s⟩ = .error .failure ∧ ParsedTemplate.new s = none := by
  rcases hoc with ⟨rfl, rfl⟩ | ⟨rfl, rfl⟩ | ⟨rfl, rfl⟩ <;> obtain ⟨u, rfl⟩ := hpre
  · have hfind : findSubIdx rbPercent u = none :=
      findSubIdx_eq_none_of rbPercent u (fun j => by
        have hj := hno j
        rwa [List.drop_left] at hj)
    have hstuck : ∀ ln2, percentParser ⟨ln2, lbPercent ++ u⟩ = .error .error := by
      intro ln2
      have h1 : parseSpecialWithSeparator lbPercent rbPercent (lbPercent ++ u) =
          .error .error := by
        simp only [parseSpecialWithSeparator, pTag_of_prefix (List.prefix_append lbPercent u),
          List.drop_left, pTakeUntil, hfind]
      simp only [percentParser, makeSpecial, h1]
    have hbp : ∀ ln2, blockParser ⟨ln2, lbPercent ++ u⟩ = .error .failure := by
      intro ln2
      simp only [blockParser]
      rw [hstuck ln2]
      rfl
    exact ⟨hbp ln, new_eq_none_of_failure (hbp 0)⟩
  · have hfind : findSubIdx rbCurly u = none :=
      findSubIdx_eq_none_of rbCurly u (fun j => by
        have hj := hno j
        rwa [List.drop_left] at hj)
    have hstuck : ∀ ln2, curlyParser ⟨ln2, lbCurly ++ u⟩ = .error .error := by
      intro ln2
      have h1 : parseSpecialWithSeparator lbCurly rbCurly (lbCurly ++ u) =
          .error .error := by
        simp only [parseSpecialWithSeparator, pTag_of_prefix (List.prefix_append lbCurly u),
          List.drop_left, pTakeUntil, hfind]
      simp only [curlyParser, makeSpecial, h1]
    have hbp : ∀ ln2, blockParser ⟨ln2, lbCurly ++ u⟩ = .error .failure := by
      intro ln2
      simp only [blockParser]
      rw [hstuck ln2]
      rfl
    exact ⟨hbp ln, new_eq_none_of_failure (hbp 0)⟩
  · have hfind : findSubIdx rbHash u = none :=
      findSubIdx_eq_none_of rbHash u (fun j => by
        have hj := hno j
        rwa [List.drop_left] at hj)
    have hstuck : ∀ ln2, hashParser ⟨ln2, lbHash ++ u⟩ = .error .error := by
      intro ln2
      have h1 : parseSpecialWithSeparator lbHash rbHash (lbHash ++ u) =
          .error .error := by
        simp only [parseSpecialWithSeparator, pTag_of_prefix (List.prefix_append lbHash u),
          List.drop_left, pTakeUntil, hfind]
      simp only [hashParser, makeSpecial, h1]
    have hbp : ∀ ln2, blockParser ⟨ln2, lbHash ++ u⟩ = .error .failure := by
      intro ln2
      simp only [blockParser]
      rw [hstuck ln2]
      rfl
    exact ⟨hbp ln, new_eq_none_of_failure (hbp 0)⟩

/-- C4 witness: the theorem applied to `"{{ abc"`. -/
theorem unterminated_tag_fails_witness :
    blockParser ⟨0, [123, 123, 32, 97, 98, 99]⟩ = .error .failure ∧
    ParsedTemplate.new [123, 123, 32, 97, 98, 99] = none :=
  unterminated_tag_fails [123, 123, 32, 97, 98, 99] lbCurly rbCurly 0
    (Or.inr (Or.inl ⟨rfl, rfl⟩)) ⟨[32, 97, 98, 99], rfl⟩
    (findSubIdx_none rbCurly [32, 97, 98, 99] rfl)

/-- C5: a successfully parsed tag consumes exactly its opening token, the raw
body up to the first occurrence of the matching closing token, and that
closing token: the closing token does not occur starting at any position
strictly before the match (delimiters never nest, and any bytes inside the
body — including other tokens' bytes — cannot push the match later). -/
theorem tag_body_first_closing (l r input rest m : List Byte) (j : Nat)
    (h : parseSpecialWithSeparator l r input = .ok (rest, m)) (hj : j < m.length) :
    input = l ++ m ++ r ++ rest ∧ ¬ r <+: ((m ++ r ++ rest).drop j) := by
  obtain ⟨hin, i, hf, hm⟩ := parseSpecialWithSeparator_ok h
  obtain ⟨_, _, hmin⟩ := findSubIdx_some r (input.drop l.length) i hf
  refine ⟨hin, ?_⟩
  have hs1 : input.drop l.length = m ++ r ++ rest := by
    rw [hin]
    rw [show l ++ m ++ r ++ rest = l ++ (m ++ r ++ rest) by simp [List.append_assoc]]
    exact List.drop_left _ _
  rw [← hs1]
  apply hmin
  rw [hm, List.length_take] at hj
  omega

/-- C5 witness: parsing `"{{ {% }}x"` with the curly pair: the body is
`" {% "` and the closing `}}` is matched at its first occurrence even though
a different opening token's bytes sit inside the body. -/
theorem tag_body_first_closing_witness :
    ([123, 123, 32, 123, 37, 32, 125, 125, 120] : List Byte) =
      lbCurly ++ [32, 123, 37, 32] ++ rbCurly ++ [120] ∧
    ¬ rbCurly <+: (([32, 123, 37, 32] ++ rbCurly ++ [120]).drop 0) :=
  tag_body_first_closing lbCurly rbCurly [123, 123, 32, 123, 37, 32, 125, 125, 120]
    [120] [32, 123, 37, 32] 0 rfl (by decide)

/-- C6: for every input accepted by `ParsedTemplate::new`, the raw byte
ranges consumed by the successive spans partition the whole input with no
gaps and no overlaps: their concatenation reproduces the input exactly, and
each raw range stands in the span relation (`rawMatches`) to its span. -/
theorem spans_cover_input (input : List Byte) (t : ParsedTemplate)
    (h : ParsedTemplate.new input = some t) :
    ∃ raws : List (List Byte), raws.flatten = input ∧
      List.Forall₂ rawMatches raws (t.parsed.map NumberedBlock.block) := by
  obtain ⟨rest, hpt, hrest⟩ := new_some h
  obtain ⟨raws, hsplit, hforall, _, _⟩ :=
    many0Block_ok (input.length + 1) ⟨0, input⟩ rest t.parsed (Nat.lt_succ_self _) hpt
  refine ⟨raws, ?_, hforall⟩
  have : input = raws.flatten ++ rest.i := hsplit
  rw [hrest] at this
  simpa using this.symm

/-- C6 witness: the theorem applied to `"{{}}"`. -/
theorem spans_cover_input_witness :
    ∃ raws : List (List Byte), raws.flatten = ([123, 123, 125, 125] : List Byte) ∧
      List.Forall₂ rawMatches raws
        ((⟨[⟨0, .special (.tagCurly [])⟩]⟩ : ParsedTemplate).parsed.map
          NumberedBlock.block) :=
  spans_cover_input [123, 123, 125, 125] ⟨[⟨0, .special (.tagCurly [])⟩]⟩ rfl

/-- C7: `instantiate` on the template built from `"Hello {{ world }}"` writes
exactly the bytes `"Hello world"` to the sink: the plain bytes verbatim, the
tag body with surrounding whitespace trimmed, and no delimiter bytes. -/
theorem hello_world_instantiate :
    (ParsedTemplate.new
        [72, 101, 108, 108, 111, 32, 123, 123, 32, 119, 111, 114, 108, 100, 32, 125, 125]).map
      (fun t => t.instantiate listSink []) =
    some (.ok [72, 101, 108, 108, 111, 32, 119, 111, 114, 108, 100]) :=
  rfl

/-- C8: every tag span produced from an accepted input stores as body the
bytes strictly between its opening and closing tokens with leading and
trailing ASCII whitespace trimmed; hence the body never starts or ends with
ASCII whitespace and re-trimming it is a no-op. -/
theorem tag_bodies_trimmed (input : List Byte) (t : ParsedTemplate)
    (nb : NumberedBlock) (sp : Special)
    (h : ParsedTemplate.new input = some t) (hmem : nb ∈ t.parsed)
    (hsp : nb.block = .special sp) :
    (∃ pre m post, input = pre ++ (specialOpenTok sp ++ m ++ specialCloseTok sp) ++ post ∧
      specialBody sp = trimAscii m) ∧
    trimAscii (specialBody sp) = specialBody sp ∧ noWsEdges (specialBody sp) = true := by
  obtain ⟨rest, hpt, hrest⟩ := new_some h
  obtain ⟨raws, hsplit, hforall, _, _⟩ :=
    many0Block_ok (input.length + 1) ⟨0, input⟩ rest t.parsed (Nat.lt_succ_self _) hpt
  have hin : input = raws.flatten := by simpa [hrest] using hsplit
  have hbmem : nb.block ∈ t.parsed.map NumberedBlock.block :=
    List.mem_map_of_mem _ hmem
  obtain ⟨p1, raw, p2, hraws, hR⟩ := forall2_mem_split hforall hbmem
  rw [hsp] at hR
  simp only [rawMatches] at hR
  obtain ⟨m, hraw, hbody⟩ := hR
  refine ⟨⟨p1.flatten, m, p2.flatten, ?_, hbody⟩, ?_, ?_⟩
  · rw [hin, hraws, hraw]
    simp [List.flatten_append, List.flatten_cons, List.append_assoc]
  · rw [hbody]
    exact trimAscii_idem m
  · rw [hbody]
    exact noWsEdges_trimAscii m

/-- C8 witness: the theorem applied to `"{{ a }}"`, whose tag body is `"a"`. -/
theorem tag_bodies_trimmed_witness :
    (∃ pre m post, ([123, 123, 32, 97, 32, 125, 125] : List Byte) =
        pre ++ (specialOpenTok (Special.tagCurly [97]) ++ m ++
          specialCloseTok (Special.tagCurly [97])) ++ post ∧
      specialBody (Special.tagCurly [97]) = trimAscii m) ∧
    trimAscii (specialBody (Special.tagCurly [97])) = specialBody (Special.tagCurly [97]) ∧
    noWsEdges (specialBody (Special.tagCurly [97])) = true :=
  tag_bodies_trimmed [123, 123, 32, 97, 32, 125, 125]
    ⟨[⟨0, .special (.tagCurly [97])⟩]⟩ ⟨0, .special (.tagCurly [97])⟩
    (Special.tagCurly [97]) rfl (List.mem_singleton.mpr rfl) rfl

/-- C9: whenever `parse_template` returns a successful result, the remaining
slice it returns is empty, so the unconsumed-input filter inside
`ParsedTemplate::new` never rejects a successful parse and the
incomplete-consumption outcome is unreachable. -/
theorem parse_consumes_all_input (input : List Byte) (rest : NumberedInput)
    (blocks : List NumberedBlock) (h : parseTemplate input = .ok (rest, blocks)) :
    rest.i = [] ∧ ParsedTemplate.new input = some ⟨blocks⟩ := by
  have hempty : rest.i = [] :=
    many0Block_rest_empty (input.length + 1) ⟨0, input⟩ rest blocks (Nat.lt_succ_self _) h
  exact ⟨hempty, by simp [ParsedTemplate.new, h, hempty]⟩

/-- C9 witness: the theorem applied to the input `"a"`. -/
theorem parse_consumes_all_input_witness :
    (⟨0, ([] : List Byte)⟩ : NumberedInput).i = ([] : List Byte) ∧
    ParsedTemplate.new [97] = some ⟨[⟨0, .plain [97]⟩]⟩ :=
  parse_consumes_all_input [97] ⟨0, []⟩ [⟨0, .plain [97]⟩] rfl

/-- C10: `ParsedTemplate::new` on the empty buffer returns a value holding
the empty span sequence, and `instantiate` on that value performs no write
at all and succeeds for every sink. -/
theorem empty_template_parse (S : Type) (w : S → List Byte → Except Unit S) (s0 : S) :
    ParsedTemplate.new [] = some ⟨[]⟩ ∧
    ParsedTemplate.instantiate ⟨[]⟩ w s0 = .ok s0 :=
  ⟨rfl, rfl⟩

/-- C10 witness: the theorem applied to the byte-accumulating sink. -/
theorem empty_template_parse_witness :
    ParsedTemplate.new [] = some ⟨[]⟩ ∧
    ParsedTemplate.instantiate ⟨[]⟩ listSink [] = .ok ([] : List Byte) :=
  empty_template_parse (List Byte) listSink []

end Tmpl
